import Mathlib

/-!
Verification of the lexy glossary search engine.

The development shallowly embeds the Python modules `lexy/models.py`,
`lexy/glossary.py` and `lexy/search.py`.  Python strings are Lean `String`s;
`str.lower` and `str.startswith` are modelled on the character list
(`pyLower`, `pyStartsWith`), Python string comparison is code-point
lexicographic comparison (`charListLe`).  Python dicts holding the glossary
are association lists in insertion order; the normalized-terms dict is kept
as the ordered list of writes performed by `_build_search_indexes`, a later
write to the same key overwriting an earlier one (`writesGet`).  Scores from
the third-party `rapidfuzz` scorer are abstract: every statement about fuzzy
search quantifies over an arbitrary scorer `sc : String → String → Rat`,
and `rapidfuzz.process.extract` is modelled by its documented contract
(score every choice, keep scores ≥ cutoff, order by descending score, take
`limit`).  Floats are modelled as rationals.
-/

namespace Lexy

/-- Model of Python `str.lower()` (`term.lower()` in the source): lower-case
every character.  `Char.toLower` covers the ASCII range, which is the range
the glossary code relies on. -/
def pyLower (s : String) : String := ⟨s.data.map Char.toLower⟩

/-- Model of Python `s.startswith(p)`: `p`'s characters are a prefix of
`s`'s characters. -/
def pyStartsWith (s p : String) : Bool := p.data.isPrefixOf s.data

/-- Code-point lexicographic comparison of character lists; models Python's
`<=` on strings, which `sorted` uses. -/
def charListLe : List Char → List Char → Bool
  | [], _ => true
  | _ :: _, [] => false
  | a :: as, b :: bs => if a < b then true else if b < a then false else charListLe as bs

/-- Python string order `a <= b` as a proposition. -/
def strLeP (a b : String) : Prop := charListLe a.data b.data = true

instance : DecidableRel strLeP := fun a b => instDecidableEqBool (charListLe a.data b.data) true

/-! ## Data model (`lexy/models.py`) -/

/-- `models.Definition`: a single definition with its own see-also list. -/
structure Definition where
  text : String
  see_also : List String
deriving DecidableEq

/-- `models.GlossaryTerm`. -/
structure GlossaryTerm where
  term : String
  definitions : List Definition
deriving DecidableEq

/-- `models.TermResult`: a term plus search metadata.  `confidence` is a
Python float, modelled as a rational. -/
structure TermResult where
  term : String
  definitions : List Definition
  confidence : Rat
  match_type : String
deriving DecidableEq

/-! ## Raw glossary values (the YAML-loaded dict) -/

/-- One entry of a term's `definitions` list as loaded from YAML, by the two
shapes the code distinguishes: a dict (whose `text` and `see_also` keys may
each be present or absent) or any other value, remembered by its `str`
rendering. -/
inductive DefEntry where
  | dict (text : Option String) (see_also : Option (List String))
  | other (s : String)
deriving DecidableEq

/-- The raw YAML value stored under one glossary key, by the two observations
the code makes of it: its Python truthiness (`if not term_data`) and the
value of `term_data.get('definitions', [])`. -/
structure TermData where
  truthy : Bool
  definitions : List DefEntry
deriving DecidableEq

/-- The glossary dict `term -> term_data`, an association list in insertion
order with unique keys. -/
abbrev RawGlossary := List (String × TermData)

/-- Dict lookup where a later write to the same key overwrites an earlier
one, as in the Python dict `normalized_terms` that `_build_search_indexes`
fills by repeated assignment. -/
def writesGet : List (String × String) → String → Option String
  | [], _ => none
  | (k', v) :: rest, k =>
    match writesGet rest k with
    | some v' => some v'
    | none => if k' = k then some v else none

/-- The see-also names the index builder reads from one definition entry:
`if isinstance(definition, dict) and 'see_also' in definition`. -/
def seeAlsoOf : DefEntry → List String
  | .dict _ (some sas) => sas
  | _ => []

/-- The writes `_build_search_indexes` performs into `normalized_terms` for
one glossary entry: first the term's own lowercase form, then the lowercase
form of every see-also name of every definition, all mapping to the term. -/
def termWrites (term : String) (td : TermData) : List (String × String) :=
  (pyLower term, term) :: (td.definitions.flatMap seeAlsoOf).map (fun sa => (pyLower sa, term))

/-- All writes into `normalized_terms`, in glossary order
(`GlossaryManager._build_search_indexes`). -/
def buildNormalized (g : RawGlossary) : List (String × String) :=
  g.flatMap (fun p => termWrites p.1 p.2)

/-- `all_searchable_terms` as built by `_build_search_indexes`: every term
followed by its see-also names, duplicates kept. -/
def buildSearchable (g : RawGlossary) : List String :=
  g.flatMap (fun p => p.1 :: p.2.definitions.flatMap seeAlsoOf)

/-- The state of a `GlossaryManager`: the glossary table and the two derived
indexes. -/
structure Store where
  glossary : RawGlossary
  normalized_terms : List (String × String)
  all_searchable_terms : List String
deriving DecidableEq

/-- The store state after a successful load of glossary `g`:
`self.glossary = g` followed by `_build_search_indexes()`. -/
def mkStore (g : RawGlossary) : Store :=
  { glossary := g, normalized_terms := buildNormalized g,
    all_searchable_terms := buildSearchable g }

/-- The empty, consistent store: the fields as `__init__` sets them, which is
also the state the `except` branch of `load_glossary` resets to. -/
def emptyStore : Store :=
  { glossary := [], normalized_terms := [], all_searchable_terms := [] }

/-- What the corpus source does when `load_glossary` runs: the file is
missing, or reading/parsing/index building raises (any exception inside the
`try` block), or it parses to a glossary dict. -/
inductive LoadSource where
  | missing
  | failure
  | parsed (g : RawGlossary)
deriving DecidableEq

/-- `GlossaryManager.load_glossary` as a state transition on the prior store
state.  A missing file takes the `else` branch and changes nothing; any
exception inside the `try` block is caught and all three fields are reset to
empty; a successful parse replaces the glossary and rebuilds both indexes.
The function is total: no failure escapes to the caller. -/
def load_glossary (prior : Store) : LoadSource → Store
  | .missing => prior
  | .failure => emptyStore
  | .parsed g => mkStore g

/-! ## `GlossaryManager` accessors (`lexy/glossary.py`) -/

/-- `GlossaryManager.get_term_data`: `self.glossary.get(term, {})`.  `none`
models the falsy default `{}`. -/
def Store.get_term_data (s : Store) (term : String) : Option TermData :=
  (s.glossary.find? (fun p => p.1 == term)).map Prod.snd

/-- Conversion of one raw definition entry into a `Definition`, as in
`get_term_object`: a dict yields `text`/`see_also` with defaults `''` and
`[]`; anything else becomes a definition whose text is its `str` form. -/
def defEntryToDefinition : DefEntry → Definition
  | .dict t sa => { text := t.getD "", see_also := sa.getD [] }
  | .other s => { text := s, see_also := [] }

/-- `GlossaryManager.get_term_object`: an absent or falsy entry yields a
definition-less `GlossaryTerm` carrying the queried string; otherwise the
raw definition entries are converted. -/
def Store.get_term_object (s : Store) (term : String) : GlossaryTerm :=
  match s.get_term_data term with
  | none => { term := term, definitions := [] }
  | some td =>
    if td.truthy then
      { term := term, definitions := td.definitions.map defEntryToDefinition }
    else
      { term := term, definitions := [] }

/-- `GlossaryManager.term_exists`: `term in self.glossary`. -/
def Store.term_exists (s : Store) (term : String) : Bool :=
  (s.glossary.find? (fun p => p.1 == term)).isSome

/-- `GlossaryManager.get_original_term`:
`self.normalized_terms.get(normalized_term.lower(), normalized_term)`. -/
def Store.get_original_term (s : Store) (name : String) : String :=
  (writesGet s.normalized_terms (pyLower name)).getD name

/-- `GlossaryManager.list_terms`: the glossary keys, filtered by a
case-insensitive prefix when one is given (`if prefix:` is false for `None`
and for the empty string), then `sorted`.  Python's `sorted` is modelled by
insertion sort under code-point string order. -/
def Store.list_terms (s : Store) (pre : Option String) : List String :=
  match pre with
  | some p =>
      if p = "" then List.insertionSort strLeP (s.glossary.map Prod.fst)
      else
        List.insertionSort strLeP
          ((s.glossary.map Prod.fst).filter (fun t => pyStartsWith (pyLower t) (pyLower p)))
  | none => List.insertionSort strLeP (s.glossary.map Prod.fst)

/-- `GlossaryManager.get_all_terms_text`.  Python renders the deduplicated
see-also names via `list(set(...))`, whose order is unspecified;
the model keeps first occurrences. -/
def Store.get_all_terms_text (s : Store) : String :=
  let text_parts := s.glossary.flatMap (fun p =>
    let term_obj := s.get_term_object p.1
    let definitions_text := String.intercalate "; " (term_obj.definitions.map Definition.text)
    let all_see_also := term_obj.definitions.flatMap Definition.see_also
    (p.1 ++ ": " ++ definitions_text) ::
      (if all_see_also = [] then []
       else ["  (See also: " ++ String.intercalate ", " all_see_also.eraseDups ++ ")"]))
  String.intercalate "\n" text_parts

/-! ## Search (`lexy/search.py`)

All search functions take the scorer `sc : String → String → Rat`
abstractly: `sc query choice` stands for `rapidfuzz.fuzz.WRatio(query,
choice)`, a float in `[0, 100]`. -/

/-- The descending-score order used by `rapidfuzz.process.extract` on
scored candidates. -/
def scoreGe (a b : String × Rat) : Prop := b.2 ≤ a.2

instance : DecidableRel scoreGe := fun a b => inferInstanceAs (Decidable (b.2 ≤ a.2))

/-- Model of `rapidfuzz.process.extract(query, choices, scorer, limit,
score_cutoff)` by its documented contract: score every choice, keep the
candidates scoring at least `score_cutoff`, order them by descending score,
and return at most `limit` of them. -/
def extract (sc : String → String → Rat) (query : String) (choices : List String)
    (limit : Nat) (score_cutoff : Rat) : List (String × Rat) :=
  (List.insertionSort scoreGe
    ((choices.map (fun c => (c, sc query c))).filter (fun p => score_cutoff ≤ p.2))).take limit

/-- The descending-confidence order of the final `results.sort(key=lambda
x: x.confidence, reverse=True)`. -/
def confGe (a b : TermResult) : Prop := b.confidence ≤ a.confidence

instance : DecidableRel confGe := fun a b => inferInstanceAs (Decidable (b.confidence ≤ a.confidence))

/-- Python's `list.sort(key=..., reverse=True)` is a stable sort; modelled
by insertion sort under descending confidence. -/
def sortByConfidence (rs : List TermResult) : List TermResult :=
  List.insertionSort confGe rs

/-- The candidate loop of `FuzzySearch.search`: canonicalize each extracted
match via `get_original_term`, skip canonical terms already seen, remember
every canonical term met, and keep a fuzzy `TermResult` only for terms that
exist in the glossary. -/
def fuzzyCollect (s : Store) : List (String × Rat) → List String → List TermResult
  | [], _ => []
  | (match_text, score) :: rest, seen =>
    if s.get_original_term match_text ∈ seen then
      fuzzyCollect s rest seen
    else
      if s.term_exists (s.get_original_term match_text) then
        { term := s.get_original_term match_text,
          definitions := (s.get_term_object (s.get_original_term match_text)).definitions,
          confidence := score / 100,
          match_type := "fuzzy" } :: fuzzyCollect s rest (s.get_original_term match_text :: seen)
      else
        fuzzyCollect s rest (s.get_original_term match_text :: seen)

/-- `FuzzySearch.search` before its final sort: the degenerate empty-index
check, the extraction at `limit=10`, and the canonicalize/dedup loop. -/
def fuzzyPre (sc : String → String → Rat) (s : Store) (query : String)
    (threshold : Rat) : List TermResult :=
  if s.all_searchable_terms = [] then []
  else fuzzyCollect s (extract sc query s.all_searchable_terms 10 threshold) []

/-- `FuzzySearch.search`: the scoring pass followed by the stable
descending-confidence sort. -/
def fuzzySearch (sc : String → String → Rat) (s : Store) (query : String)
    (threshold : Rat) : List TermResult :=
  sortByConfidence (fuzzyPre sc s query threshold)

/-- The dedup loop of `FuzzySearch.get_suggestions` (names only, no
existence check). -/
def suggCollect (s : Store) : List (String × Rat) → List String → List String
  | [], _ => []
  | (match_text, _) :: rest, seen =>
    let original_term := s.get_original_term match_text
    if original_term ∈ seen then suggCollect s rest seen
    else original_term :: suggCollect s rest (original_term :: seen)

/-- `FuzzySearch.get_suggestions`. -/
def get_suggestions (sc : String → String → Rat) (s : Store) (query : String)
    (threshold : Rat) (max_suggestions : Nat) : List String :=
  if s.all_searchable_terms = [] then []
  else suggCollect s (extract sc query s.all_searchable_terms max_suggestions threshold) []

/-- `ExactSearch.lookup`: lowercase the input, resolve through
`normalized_terms`; on a hit return the single exact result for the resolved
canonical term; on a miss return the top 3 fuzzy results at threshold 60,
relabelled as suggestions. -/
def lookup (sc : String → String → Rat) (s : Store) (term : String) : List TermResult :=
  match writesGet s.normalized_terms (pyLower term) with
  | some original_term =>
      [{ term := original_term,
         definitions := (s.get_term_object original_term).definitions,
         confidence := 1,
         match_type := "exact" }]
  | none =>
      ((fuzzySearch sc s term 60).take 3).map (fun r => { r with match_type := "suggestion" })

/-- The request string `AgenticSearch.search` builds: `f"{query} (Context:
{context})"` when a context is given and truthy. -/
def fullQuery (query : String) (context : Option String) : String :=
  match context with
  | some c => if c = "" then query else query ++ " (Context: " ++ c ++ ")"
  | none => query

/-- The fallback branch shared by both failure paths of
`AgenticSearch.search`: top 3 fuzzy results at threshold 60, relabelled. -/
def agenticFallback (sc : String → String → Rat) (s : Store) (query : String) : List TermResult :=
  ((fuzzySearch sc s query 60).take 3).map (fun r => { r with match_type := "agentic_fallback" })

/-- `AgenticSearch.search`.  The PydanticAI agent is an abstract capability
`run : request → corpus text → Except error (term names)`; `none` models
`self.agent is None` after a failed initialization, and an `Except.error`
models any exception raised by the invocation, caught by the `except`
branch.  Both take the fuzzy fallback.  On success, names are resolved
against the glossary and unresolved names are skipped. -/
def agenticSearch (sc : String → String → Rat) (s : Store)
    (agent : Option (String → String → Except String (List String)))
    (query : String) (context : Option String) : List TermResult :=
  match agent with
  | none => agenticFallback sc s query
  | some run =>
      match run (fullQuery query context) s.get_all_terms_text with
      | .error _ => agenticFallback sc s query
      | .ok relevant_terms =>
          relevant_terms.filterMap (fun t =>
            if s.term_exists t then
              some { term := t,
                     definitions := (s.get_term_object t).definitions,
                     confidence := 1,
                     match_type := "agentic" }
            else none)

/-- The see-also names attached to term `T` across all its definitions in
the raw glossary, as the index builder reads them. -/
def seeAlsoNamesOf (g : RawGlossary) (T : String) : List String :=
  g.flatMap (fun p => if p.1 = T then p.2.definitions.flatMap seeAlsoOf else [])

/-! ## Fixed corpora and scorers for concrete statements -/

/-- A degenerate scorer used for concrete instances where the fuzzy path is
irrelevant. -/
def scZero : String → String → Rat := fun _ _ => 0

/-- A constant scorer inside the WRatio range. -/
def scW : String → String → Rat := fun _ _ => 90

/-- Corpus in which the later term "B" carries a see-also "a" that collides
with the lowercase form of the earlier term "A". -/
def cgC1 : RawGlossary :=
  [("A", { truthy := true, definitions := [] }),
   ("B", { truthy := true, definitions := [DefEntry.dict (some "x") (some ["a"])] })]

/-- Corpus in which the see-also "x" of term "A" collides with the lowercase
form of the later term "X". -/
def cgC2 : RawGlossary :=
  [("A", { truthy := true, definitions := [DefEntry.dict none (some ["x"])] }),
   ("X", { truthy := true, definitions := [] })]

/-- The spec's own scenario corpus: one term with one definition and one
see-also name. -/
def cgW : RawGlossary :=
  [("HTTP", { truthy := true,
              definitions := [DefEntry.dict (some "HyperText Transfer Protocol")
                                (some ["web protocol"])] })]

/-- Two-term corpora with the same keys loaded in opposite orders. -/
def cgP1 : RawGlossary :=
  [("Alpha", { truthy := true, definitions := [] }),
   ("beta", { truthy := true, definitions := [] })]

def cgP2 : RawGlossary :=
  [("beta", { truthy := true, definitions := [] }),
   ("Alpha", { truthy := true, definitions := [] })]

/-! ## Basic facts about the normalized map -/

theorem writesGet_mem {k v : String} : ∀ {w : List (String × String)},
    writesGet w k = some v → (k, v) ∈ w := by
  intro w
  induction w with
  | nil => intro h; simp [writesGet] at h
  | cons p rest ih =>
    intro h
    obtain ⟨k', v'⟩ := p
    simp only [writesGet] at h
    cases hres : writesGet rest k with
    | some u =>
      rw [hres] at h
      simp only [Option.some.injEq] at h
      subst h
      exact List.mem_cons_of_mem _ (ih hres)
    | none =>
      rw [hres] at h
      by_cases hk : k' = k
      · rw [if_pos hk] at h
        simp only [Option.some.injEq] at h
        subst hk; subst h
        exact List.mem_cons_self _ _
      · rw [if_neg hk] at h
        exact absurd h (by simp)

theorem writesGet_isSome_of_mem {k v : String} : ∀ {w : List (String × String)},
    (k, v) ∈ w → (writesGet w k).isSome := by
  intro w
  induction w with
  | nil => intro h; simp at h
  | cons p rest ih =>
    intro h
    obtain ⟨k', v'⟩ := p
    simp only [writesGet]
    cases hres : writesGet rest k with
    | some u => simp
    | none =>
      rcases List.mem_cons.mp h with h1 | h2
      · have hk : k' = k := by
          have := congrArg Prod.fst h1.symm
          simpa using this
        rw [if_pos hk]
        simp
      · have := ih h2
        rw [hres] at this
        simp at this

theorem termWrites_snd {t : String} {td : TermData} {p : String × String}
    (h : p ∈ termWrites t td) : p.2 = t := by
  simp only [termWrites, List.mem_cons, List.mem_map] at h
  rcases h with h | ⟨sa, _, h⟩ <;> subst h <;> rfl

theorem buildNormalized_val_mem_keys {g : RawGlossary} {k v : String}
    (h : (k, v) ∈ buildNormalized g) : v ∈ g.map Prod.fst := by
  simp only [buildNormalized, List.mem_flatMap] at h
  obtain ⟨p, hp, hw⟩ := h
  have hv : v = p.1 := termWrites_snd hw
  exact List.mem_map.mpr ⟨p, hp, hv.symm⟩

theorem key_mem_buildNormalized {g : RawGlossary} {T : String}
    (h : T ∈ g.map Prod.fst) : (pyLower T, T) ∈ buildNormalized g := by
  obtain ⟨p, hp, hT⟩ := List.mem_map.mp h
  simp only [buildNormalized, List.mem_flatMap]
  refine ⟨p, hp, ?_⟩
  rw [← hT]
  exact List.mem_cons_self _ _

theorem seealso_mem_buildNormalized {g : RawGlossary} {S T : String}
    (h : S ∈ seeAlsoNamesOf g T) : (pyLower S, T) ∈ buildNormalized g := by
  simp only [seeAlsoNamesOf, List.mem_flatMap] at h
  obtain ⟨p, hp, hS⟩ := h
  by_cases hpt : p.1 = T
  · rw [if_pos hpt] at hS
    simp only [buildNormalized, List.mem_flatMap]
    refine ⟨p, hp, ?_⟩
    simp only [termWrites, List.mem_cons, List.mem_map]
    right
    exact ⟨S, hS, by rw [hpt]⟩
  · rw [if_neg hpt] at hS
    simp at hS

/-! ## Case lemmas for `lookup` -/

theorem lookup_hit {sc : String → String → Rat} {s : Store} {q v : String}
    (hv : writesGet s.normalized_terms (pyLower q) = some v) :
    lookup sc s q = [{ term := v, definitions := (s.get_term_object v).definitions,
                       confidence := 1, match_type := "exact" }] := by
  unfold lookup
  rw [hv]

theorem lookup_miss {sc : String → String → Rat} {s : Store} {q : String}
    (hm : writesGet s.normalized_terms (pyLower q) = none) :
    lookup sc s q =
      ((fuzzySearch sc s q 60).take 3).map (fun r => { r with match_type := "suggestion" }) := by
  unfold lookup
  rw [hm]

/-! ## Facts about extraction, the candidate loop and the confidence sort -/

theorem extract_forall {sc : String → String → Rat} {q : String} {choices : List String}
    {lim : Nat} {cut : Rat} :
    ∀ m ∈ extract sc q choices lim cut, m.1 ∈ choices ∧ m.2 = sc q m.1 ∧ cut ≤ m.2 := by
  intro m hm
  unfold extract at hm
  have hm1 := List.take_subset _ _ hm
  have hm2 := (List.perm_insertionSort scoreGe _).mem_iff.mp hm1
  have hm3 := List.mem_filter.mp hm2
  obtain ⟨c, hc, hcm⟩ := List.mem_map.mp hm3.1
  have hcut := of_decide_eq_true hm3.2
  subst hcm
  exact ⟨hc, rfl, hcut⟩

theorem extract_length_le {sc : String → String → Rat} {q : String} {choices : List String}
    {lim : Nat} {cut : Rat} : (extract sc q choices lim cut).length ≤ lim := by
  unfold extract
  exact List.length_take_le _ _

theorem fuzzyCollect_forall (s : Store) :
    ∀ (ms : List (String × Rat)) (seen : List String),
      ∀ r ∈ fuzzyCollect s ms seen,
        r.match_type = "fuzzy" ∧ ∃ m ∈ ms, r.confidence = m.2 / 100 := by
  intro ms
  induction ms with
  | nil =>
    intro seen r hr
    simp [fuzzyCollect] at hr
  | cons m rest ih =>
    intro seen r hr
    obtain ⟨mt, score⟩ := m
    simp only [fuzzyCollect] at hr
    split_ifs at hr with h1 h2
    · obtain ⟨hmt, m', hm', hc⟩ := ih seen r hr
      exact ⟨hmt, m', List.mem_cons_of_mem _ hm', hc⟩
    · rcases List.mem_cons.mp hr with h | h
      · subst h
        exact ⟨rfl, (mt, score), List.mem_cons_self _ _, rfl⟩
      · obtain ⟨hmt, m', hm', hc⟩ := ih _ r h
        exact ⟨hmt, m', List.mem_cons_of_mem _ hm', hc⟩
    · obtain ⟨hmt, m', hm', hc⟩ := ih _ r hr
      exact ⟨hmt, m', List.mem_cons_of_mem _ hm', hc⟩

theorem fuzzyCollect_length_le (s : Store) :
    ∀ (ms : List (String × Rat)) (seen : List String),
      (fuzzyCollect s ms seen).length ≤ ms.length := by
  intro ms
  induction ms with
  | nil => intro seen; simp [fuzzyCollect]
  | cons m rest ih =>
    intro seen
    obtain ⟨mt, score⟩ := m
    simp only [fuzzyCollect]
    split_ifs
    · exact le_trans (ih seen) (Nat.le_succ _)
    · simpa using Nat.succ_le_succ (ih _)
    · exact le_trans (ih _) (Nat.le_succ _)

theorem fuzzyCollect_nodup (s : Store) :
    ∀ (ms : List (String × Rat)) (seen : List String),
      (fuzzyCollect s ms seen).Pairwise (fun a b => a.term ≠ b.term) ∧
      ∀ r ∈ fuzzyCollect s ms seen, r.term ∉ seen := by
  intro ms
  induction ms with
  | nil =>
    intro seen
    refine ⟨List.Pairwise.nil, ?_⟩
    intro r hr
    simp [fuzzyCollect] at hr
  | cons m rest ih =>
    intro seen
    obtain ⟨mt, score⟩ := m
    simp only [fuzzyCollect]
    split_ifs with h1 h2
    · exact ih seen
    · constructor
      · refine List.Pairwise.cons ?_ (ih _).1
        intro b hb he
        exact (ih _).2 b hb (he ▸ List.mem_cons_self _ _)
      · intro r hr
        rcases List.mem_cons.mp hr with h | h
        · rw [h]
          exact h1
        · exact fun hs => (ih _).2 r h (List.mem_cons_of_mem _ hs)
    · refine ⟨(ih _).1, ?_⟩
      intro r hr
      exact fun hs => (ih _).2 r hr (List.mem_cons_of_mem _ hs)

instance : IsTotal TermResult confGe := ⟨fun a b => le_total b.confidence a.confidence⟩
instance : IsTrans TermResult confGe := ⟨fun _ _ _ h1 h2 => le_trans h2 h1⟩

theorem mem_fuzzyPre_of_mem_fuzzySearch {sc : String → String → Rat} {s : Store}
    {query : String} {threshold : Rat} {r : TermResult}
    (hr : r ∈ fuzzySearch sc s query threshold) : r ∈ fuzzyPre sc s query threshold :=
  (List.perm_insertionSort confGe _).mem_iff.mp hr

theorem fuzzyPre_forall {sc : String → String → Rat} {s : Store}
    {query : String} {threshold : Rat} :
    ∀ r ∈ fuzzyPre sc s query threshold,
      r.match_type = "fuzzy" ∧
      ∃ m ∈ extract sc query s.all_searchable_terms 10 threshold, r.confidence = m.2 / 100 := by
  intro r hr
  unfold fuzzyPre at hr
  split_ifs at hr
  · simp at hr
  · exact fuzzyCollect_forall s _ _ r hr

/-- Stability of the confidence sort, key `=` case: inserting an element
whose confidence is `c` prepends it to the filtered slice of confidence `c`. -/
theorem filter_orderedInsert_eq (a : TermResult) (c : Rat) (ha : a.confidence = c) :
    ∀ l : List TermResult,
      (List.orderedInsert confGe a l).filter (fun r => decide (r.confidence = c))
        = a :: l.filter (fun r => decide (r.confidence = c)) := by
  intro l
  induction l with
  | nil => simp [List.orderedInsert, ha]
  | cons b l ih =>
    by_cases hab : confGe a b
    · rw [List.orderedInsert, if_pos hab]
      rw [List.filter_cons_of_pos (by simp [ha])]
    · rw [List.orderedInsert, if_neg hab]
      have hbc : ¬ b.confidence = c := by
        intro hbc
        exact hab (by rw [confGe, hbc, ← ha])
      rw [List.filter_cons_of_neg (by simp [hbc]), ih,
          List.filter_cons_of_neg (by simp [hbc])]

/-- Stability of the confidence sort, key `≠` case: inserting an element of
a different confidence leaves the filtered slice of confidence `c` alone. -/
theorem filter_orderedInsert_ne (a : TermResult) (c : Rat) (ha : ¬ a.confidence = c) :
    ∀ l : List TermResult,
      (List.orderedInsert confGe a l).filter (fun r => decide (r.confidence = c))
        = l.filter (fun r => decide (r.confidence = c)) := by
  intro l
  induction l with
  | nil => simp [List.orderedInsert, ha]
  | cons b l ih =>
    by_cases hab : confGe a b
    · rw [List.orderedInsert, if_pos hab]
      rw [List.filter_cons_of_neg (by simp [ha])]
    · rw [List.orderedInsert, if_neg hab]
      by_cases hbc : b.confidence = c
      · rw [List.filter_cons_of_pos (by simp [hbc]), ih,
            List.filter_cons_of_pos (by simp [hbc])]
      · rw [List.filter_cons_of_neg (by simp [hbc]), ih,
            List.filter_cons_of_neg (by simp [hbc])]

/-- The confidence sort is stable: the elements of each confidence value
appear in the sorted output exactly as in the input. -/
theorem filter_sortByConfidence (l : List TermResult) (c : Rat) :
    (sortByConfidence l).filter (fun r => decide (r.confidence = c))
      = l.filter (fun r => decide (r.confidence = c)) := by
  induction l with
  | nil => rfl
  | cons a l ih =>
    unfold sortByConfidence at ih ⊢
    rw [List.insertionSort]
    by_cases ha : a.confidence = c
    · rw [filter_orderedInsert_eq a c ha, ih, List.filter_cons_of_pos (by simp [ha])]
    · rw [filter_orderedInsert_ne a c ha, ih, List.filter_cons_of_neg (by simp [ha])]

/-! ## Code-point order facts for `sorted` -/

theorem charListLe_cons_iff {x y : Char} {xs ys : List Char} :
    charListLe (x :: xs) (y :: ys) = true ↔ x < y ∨ (x = y ∧ charListLe xs ys = true) := by
  simp only [charListLe]
  rcases lt_trichotomy x y with h | h | h
  · rw [if_pos h]
    simp [h]
  · subst h
    rw [if_neg (lt_irrefl x), if_neg (lt_irrefl x)]
    simp [lt_irrefl]
  · rw [if_neg (lt_asymm h), if_pos h]
    simp only [Bool.false_eq_true, false_iff]
    rintro (hlt | ⟨he, _⟩)
    · exact absurd hlt (lt_asymm h)
    · exact absurd h (by rw [he]; exact lt_irrefl y)

theorem charListLe_total : ∀ a b : List Char, charListLe a b = true ∨ charListLe b a = true := by
  intro a
  induction a with
  | nil => intro b; left; rfl
  | cons x xs ih =>
    intro b
    cases b with
    | nil => right; rfl
    | cons y ys =>
      rcases lt_trichotomy x y with h | h | h
      · left
        exact charListLe_cons_iff.mpr (Or.inl h)
      · rcases ih ys with h2 | h2
        · left
          exact charListLe_cons_iff.mpr (Or.inr ⟨h, h2⟩)
        · right
          exact charListLe_cons_iff.mpr (Or.inr ⟨h.symm, h2⟩)
      · right
        exact charListLe_cons_iff.mpr (Or.inl h)

theorem charListLe_trans : ∀ a b c : List Char,
    charListLe a b = true → charListLe b c = true → charListLe a c = true := by
  intro a
  induction a with
  | nil => intro b c _ _; rfl
  | cons x xs ih =>
    intro b c hab hbc
    cases b with
    | nil => simp [charListLe] at hab
    | cons y ys =>
      cases c with
      | nil => simp [charListLe] at hbc
      | cons z zs =>
        rcases charListLe_cons_iff.mp hab with h1 | ⟨h1, hr1⟩ <;>
          rcases charListLe_cons_iff.mp hbc with h2 | ⟨h2, hr2⟩
        · exact charListLe_cons_iff.mpr (Or.inl (lt_trans h1 h2))
        · exact charListLe_cons_iff.mpr (Or.inl (h2 ▸ h1))
        · exact charListLe_cons_iff.mpr (Or.inl (h1 ▸ h2))
        · exact charListLe_cons_iff.mpr (Or.inr ⟨h1.trans h2, ih ys zs hr1 hr2⟩)

theorem charListLe_antisymm : ∀ a b : List Char,
    charListLe a b = true → charListLe b a = true → a = b := by
  intro a
  induction a with
  | nil =>
    intro b hab hba
    cases b with
    | nil => rfl
    | cons y ys => simp [charListLe] at hba
  | cons x xs ih =>
    intro b hab hba
    cases b with
    | nil => simp [charListLe] at hab
    | cons y ys =>
      rcases charListLe_cons_iff.mp hab with h1 | ⟨h1, hr1⟩
      · rcases charListLe_cons_iff.mp hba with h2 | ⟨h2, _⟩
        · exact absurd h2 (lt_asymm h1)
        · exact absurd (h2 ▸ h1) (lt_irrefl y)
      · rcases charListLe_cons_iff.mp hba with h2 | ⟨_, hr2⟩
        · exact absurd (h1 ▸ h2) (lt_irrefl y)
        · rw [h1, ih ys hr1 hr2]

instance : IsTotal String strLeP := ⟨fun a b => charListLe_total a.data b.data⟩
instance : IsTrans String strLeP := ⟨fun a b c => charListLe_trans a.data b.data c.data⟩
instance : IsAntisymm String strLeP :=
  ⟨fun a b h1 h2 => by
    have h := charListLe_antisymm a.data b.data h1 h2
    cases a
    cases b
    exact congrArg String.mk h⟩

/-! ## C1 -/

/-- C1, counterexample: in `cgC1` the string "A" is a key of the glossary
table, yet `lookup("A")` returns a result whose term is "B", not "A"'s
canonical form — the see-also "a" of the later term "B" overwrote the
normalized-map entry for "A". -/
theorem C1_counterexample :
    "A" ∈ cgC1.map Prod.fst ∧
    (lookup scZero (mkStore cgC1) "A").map TermResult.term = ["B"] ∧
    "B" ≠ "A" := by
  decide

/-- C1 (amended): for a glossary key `T`, looking up any casing of `T`
returns exactly one result with confidence 1.0 and match type "exact",
whose term is the canonical term the normalized map assigns to `T`'s
lowercase form — this is some glossary key, and it is `T` itself whenever
the normalized map still maps `T`'s lowercase form to `T` (no later write
for the same lowercase form). -/
theorem C1_lookup_key_exact (sc : String → String → Rat) (g : RawGlossary) (T q : String)
    (hT : T ∈ g.map Prod.fst) (hq : pyLower q = pyLower T) :
    ∃ r : TermResult,
      lookup sc (mkStore g) q = [r] ∧
      r.confidence = 1 ∧ r.match_type = "exact" ∧
      writesGet (buildNormalized g) (pyLower T) = some r.term ∧
      r.term ∈ g.map Prod.fst ∧
      (writesGet (buildNormalized g) (pyLower T) = some T → r.term = T) := by
  have hmem := key_mem_buildNormalized hT
  have hsome := writesGet_isSome_of_mem hmem
  obtain ⟨v, hv⟩ := Option.isSome_iff_exists.mp hsome
  have hv' : writesGet (mkStore g).normalized_terms (pyLower q) = some v := by
    rw [hq]; exact hv
  refine ⟨_, lookup_hit hv', rfl, rfl, hv, ?_, ?_⟩
  · exact buildNormalized_val_mem_keys (writesGet_mem hv)
  · intro h
    have := hv.symm.trans h
    simpa using this

/-- Witness for C1 at the spec's scenario corpus. -/
theorem C1_witness :
    ("HTTP" ∈ cgW.map Prod.fst) ∧ (pyLower "http" = pyLower "HTTP") ∧
    (∃ r : TermResult,
      lookup scZero (mkStore cgW) "http" = [r] ∧
      r.confidence = 1 ∧ r.match_type = "exact" ∧
      writesGet (buildNormalized cgW) (pyLower "HTTP") = some r.term ∧
      r.term ∈ cgW.map Prod.fst ∧
      (writesGet (buildNormalized cgW) (pyLower "HTTP") = some "HTTP" → r.term = "HTTP")) :=
  ⟨by decide, by decide, C1_lookup_key_exact scZero cgW "HTTP" "http" (by decide) (by decide)⟩

/-! ## C2 -/

/-- C2, counterexample: in `cgC2` the name "x" is a see-also of term "A",
yet `lookup("x")` returns the exact result of term "X", not of "A" — the
canonical term "X", processed later, overwrote the normalized-map entry. -/
theorem C2_counterexample :
    "x" ∈ seeAlsoNamesOf cgC2 "A" ∧
    (lookup scZero (mkStore cgC2) "x").map TermResult.term = ["X"] ∧
    "X" ≠ "A" := by
  decide

/-- C2 (amended): for a see-also name `S` of term `T`, looking up `S` (any
casing) returns exactly one result with confidence 1.0 and match type
"exact", whose term is the canonical term the normalized map assigns to
`S`'s lowercase form — some glossary key, and exactly `T`'s exact result
whenever the normalized map still maps `S`'s lowercase form to `T` (no
later write for the same lowercase form). -/
theorem C2_seealso_lookup (sc : String → String → Rat) (g : RawGlossary) (S T q : String)
    (hS : S ∈ seeAlsoNamesOf g T) (hq : pyLower q = pyLower S) :
    ∃ r : TermResult,
      lookup sc (mkStore g) q = [r] ∧
      r.confidence = 1 ∧ r.match_type = "exact" ∧
      writesGet (buildNormalized g) (pyLower S) = some r.term ∧
      r.term ∈ g.map Prod.fst ∧
      (writesGet (buildNormalized g) (pyLower S) = some T →
        r = { term := T, definitions := ((mkStore g).get_term_object T).definitions,
              confidence := 1, match_type := "exact" }) := by
  have hmem := seealso_mem_buildNormalized hS
  have hsome := writesGet_isSome_of_mem hmem
  obtain ⟨v, hv⟩ := Option.isSome_iff_exists.mp hsome
  have hv' : writesGet (mkStore g).normalized_terms (pyLower q) = some v := by
    rw [hq]; exact hv
  refine ⟨_, lookup_hit hv', rfl, rfl, hv, ?_, ?_⟩
  · exact buildNormalized_val_mem_keys (writesGet_mem hv)
  · intro h
    have hvT : v = T := by
      have := hv.symm.trans h
      simpa using this
    rw [hvT]

/-- Witness for C2 at the spec's scenario corpus. -/
theorem C2_witness :
    ("web protocol" ∈ seeAlsoNamesOf cgW "HTTP") ∧
    (pyLower "web protocol" = pyLower "web protocol") ∧
    (∃ r : TermResult,
      lookup scZero (mkStore cgW) "web protocol" = [r] ∧
      r.confidence = 1 ∧ r.match_type = "exact" ∧
      writesGet (buildNormalized cgW) (pyLower "web protocol") = some r.term ∧
      r.term ∈ cgW.map Prod.fst ∧
      (writesGet (buildNormalized cgW) (pyLower "web protocol") = some "HTTP" →
        r = { term := "HTTP",
              definitions := ((mkStore cgW).get_term_object "HTTP").definitions,
              confidence := 1, match_type := "exact" })) :=
  ⟨by decide, rfl,
   C2_seealso_lookup scZero cgW "web protocol" "HTTP" "web protocol" (by decide) rfl⟩

/-! ## C3 -/

/-- C3: starting from the freshly initialized empty store (the state at the
only call site of `load_glossary`, in `__init__`), every failing load —
missing file or any exception while reading, parsing or building indexes —
leaves the store empty and consistent: the term table, the normalized map
and the searchable name list are all empty, and the state equals the index
state of an empty corpus, never a half-built index.  `load_glossary` is a
total function into `Store`: no failure is raised to the caller. -/
theorem C3_load_failure_resets (prior : Store) (src : LoadSource)
    (hprior : prior = emptyStore)
    (hfail : src = LoadSource.missing ∨ src = LoadSource.failure) :
    load_glossary prior src = emptyStore ∧
    load_glossary prior src = mkStore [] ∧
    (load_glossary prior src).glossary = [] ∧
    (load_glossary prior src).normalized_terms = [] ∧
    (load_glossary prior src).all_searchable_terms = [] := by
  subst hprior
  rcases hfail with h | h <;> subst h <;> exact ⟨rfl, rfl, rfl, rfl, rfl⟩

/-- Witness for C3 at the missing-file failure. -/
theorem C3_witness :
    (emptyStore = emptyStore) ∧
    (LoadSource.missing = LoadSource.missing ∨ LoadSource.missing = LoadSource.failure) ∧
    (load_glossary emptyStore LoadSource.missing = emptyStore ∧
     load_glossary emptyStore LoadSource.missing = mkStore [] ∧
     (load_glossary emptyStore LoadSource.missing).glossary = [] ∧
     (load_glossary emptyStore LoadSource.missing).normalized_terms = [] ∧
     (load_glossary emptyStore LoadSource.missing).all_searchable_terms = []) :=
  ⟨rfl, Or.inl rfl, C3_load_failure_resets emptyStore LoadSource.missing rfl (Or.inl rfl)⟩

/-! ## C4 -/

/-- C4: fuzzy search returns at most one result per canonical term — after
the candidate loop canonicalizes each surviving name through the normalized
map and keeps only the first occurrence of each canonical term, no two
results of the returned list share the same `term` field (the final sort
only permutes them). -/
theorem C4_fuzzy_no_duplicate_terms (sc : String → String → Rat) (s : Store)
    (query : String) (threshold : Rat) :
    (fuzzySearch sc s query threshold).Pairwise (fun a b => a.term ≠ b.term) := by
  have hpre : (fuzzyPre sc s query threshold).Pairwise (fun a b => a.term ≠ b.term) := by
    unfold fuzzyPre
    split_ifs
    · exact List.Pairwise.nil
    · exact (fuzzyCollect_nodup s _ _).1
  exact (List.Perm.pairwise_iff (fun hxy => Ne.symm hxy)
    (List.perm_insertionSort confGe _)).mpr hpre

/-! ## C5 -/

/-- C5: the list returned by fuzzy search is sorted by non-increasing
confidence (`confGe a b` says `b`'s confidence is at most `a`'s), and the
final sort is stable: for every confidence value, the results carrying it
appear exactly as the scoring pass (`fuzzyPre`) produced them. -/
theorem C5_fuzzy_sorted_stable (sc : String → String → Rat) (s : Store)
    (query : String) (threshold : Rat) :
    (fuzzySearch sc s query threshold).Sorted confGe ∧
    ∀ c : Rat,
      (fuzzySearch sc s query threshold).filter (fun r => decide (r.confidence = c))
        = (fuzzyPre sc s query threshold).filter (fun r => decide (r.confidence = c)) :=
  ⟨List.sorted_insertionSort confGe _, fun c => filter_sortByConfidence _ c⟩

/-! ## C6 -/

/-- C6: when the scorer is bounded by 100 on the searchable names (as
`fuzz.WRatio` is), every fuzzy result has confidence equal to some
candidate's score divided by 100, hence at least `threshold / 100` and at
most 1, carries match type "fuzzy", and at most 10 results are returned
(at most 10 raw candidates are extracted before dedup). -/
theorem C6_fuzzy_confidence_bounds (sc : String → String → Rat) (s : Store)
    (query : String) (threshold : Rat)
    (hsc : ∀ name ∈ s.all_searchable_terms, sc query name ≤ 100) :
    (∀ r ∈ fuzzySearch sc s query threshold,
        r.match_type = "fuzzy" ∧
        (∃ name ∈ s.all_searchable_terms, r.confidence = sc query name / 100) ∧
        threshold / 100 ≤ r.confidence ∧ r.confidence ≤ 1) ∧
    (fuzzySearch sc s query threshold).length ≤ 10 := by
  constructor
  · intro r hr
    obtain ⟨hmt, m, hm, hconf⟩ := fuzzyPre_forall r (mem_fuzzyPre_of_mem_fuzzySearch hr)
    obtain ⟨hch, hval, hcut⟩ := extract_forall m hm
    refine ⟨hmt, ⟨m.1, hch, by rw [hconf, hval]⟩, ?_, ?_⟩
    · rw [hconf]
      exact (div_le_div_iff_of_pos_right (by norm_num : (0:Rat) < 100)).mpr hcut
    · rw [hconf]
      refine (div_le_one (by norm_num : (0:Rat) < 100)).mpr ?_
      rw [hval]
      exact hsc m.1 hch
  · have h1 : (fuzzySearch sc s query threshold).length
        = (fuzzyPre sc s query threshold).length :=
      (List.perm_insertionSort confGe _).length_eq
    rw [h1]
    unfold fuzzyPre
    split_ifs
    · simp
    · exact le_trans (fuzzyCollect_length_le s _ _) extract_length_le

/-- Witness for C6 with a bounded scorer on the spec's scenario corpus. -/
theorem C6_witness :
    (∀ name ∈ (mkStore cgW).all_searchable_terms, scW "HTTO" name ≤ 100) ∧
    ((∀ r ∈ fuzzySearch scW (mkStore cgW) "HTTO" 60,
        r.match_type = "fuzzy" ∧
        (∃ name ∈ (mkStore cgW).all_searchable_terms,
            r.confidence = scW "HTTO" name / 100) ∧
        (60 : Rat) / 100 ≤ r.confidence ∧ r.confidence ≤ 1) ∧
    (fuzzySearch scW (mkStore cgW) "HTTO" 60).length ≤ 10) :=
  ⟨by decide, C6_fuzzy_confidence_bounds scW (mkStore cgW) "HTTO" 60 (by decide)⟩

/-! ## C7 -/

theorem agenticFallback_match_type {sc : String → String → Rat} {s : Store} {query : String} :
    ∀ r ∈ agenticFallback sc s query, r.match_type = "agentic_fallback" := by
  intro r hr
  obtain ⟨r', _, hmap⟩ := List.mem_map.mp hr
  rw [← hmap]

/-- Iota-reduction of `agenticSearch` at a present capability handle. -/
theorem agenticSearch_some (sc : String → String → Rat) (s : Store)
    (run : String → String → Except String (List String))
    (query : String) (context : Option String) :
    agenticSearch sc s (some run) query context =
      (match run (fullQuery query context) s.get_all_terms_text with
       | Except.error _ => agenticFallback sc s query
       | Except.ok relevant_terms =>
           relevant_terms.filterMap (fun t =>
             if s.term_exists t then
               some { term := t, definitions := (s.get_term_object t).definitions,
                      confidence := 1, match_type := "agentic" }
             else none)) := rfl

theorem agenticSearch_match_type {sc : String → String → Rat} {s : Store}
    {agent : Option (String → String → Except String (List String))}
    {query : String} {context : Option String} :
    ∀ r ∈ agenticSearch sc s agent query context,
      r.match_type = "agentic" ∨ r.match_type = "agentic_fallback" := by
  intro r hr
  cases agent with
  | none => exact Or.inr (agenticFallback_match_type r hr)
  | some run =>
    rw [agenticSearch_some] at hr
    cases hrun : run (fullQuery query context) s.get_all_terms_text with
    | error e =>
      rw [hrun] at hr
      exact Or.inr (agenticFallback_match_type r hr)
    | ok ts =>
      rw [hrun] at hr
      obtain ⟨t, _, hft⟩ := List.mem_filterMap.mp hr
      by_cases hex : s.term_exists t
      · rw [if_pos hex] at hft
        left
        have := congrArg (fun o => (Option.getD o r).match_type) hft
        simpa using this.symm
      · rw [if_neg hex] at hft
        exact absurd hft (by simp)

/-- C7: on a miss of the normalized map, `lookup` returns exactly the top 3
results of `fuzzySearch(term, 60)` with only `match_type` relabelled to
"suggestion" (the record-update map changes no other field); consequently
every `lookup` result has match type "exact" or "suggestion", and neither
fuzzy search nor agentic search ever produces "suggestion". -/
theorem C7_lookup_miss_suggestions (sc : String → String → Rat) (s : Store) (q : String)
    (hmiss : writesGet s.normalized_terms (pyLower q) = none) :
    lookup sc s q =
      ((fuzzySearch sc s q 60).take 3).map (fun r => { r with match_type := "suggestion" }) ∧
    (∀ q' : String, ∀ r ∈ lookup sc s q',
        r.match_type = "exact" ∨ r.match_type = "suggestion") ∧
    (∀ (query : String) (threshold : Rat), ∀ r ∈ fuzzySearch sc s query threshold,
        r.match_type ≠ "suggestion") ∧
    (∀ (agent : Option (String → String → Except String (List String)))
        (query : String) (context : Option String),
        ∀ r ∈ agenticSearch sc s agent query context, r.match_type ≠ "suggestion") := by
  refine ⟨lookup_miss hmiss, ?_, ?_, ?_⟩
  · intro q' r hr
    cases hv : writesGet s.normalized_terms (pyLower q') with
    | some v =>
      rw [lookup_hit hv] at hr
      left
      rw [List.mem_singleton.mp hr]
    | none =>
      rw [lookup_miss hv] at hr
      obtain ⟨r', _, hmap⟩ := List.mem_map.mp hr
      right
      rw [← hmap]
  · intro query threshold r hr
    have h := (fuzzyPre_forall r (mem_fuzzyPre_of_mem_fuzzySearch hr)).1
    rw [h]
    decide
  · intro agent query context r hr
    rcases agenticSearch_match_type r hr with h | h <;> rw [h] <;> decide

/-- Witness for C7: a typo query on the spec's scenario corpus. -/
theorem C7_witness :
    (writesGet (mkStore cgW).normalized_terms (pyLower "HTPP") = none) ∧
    (lookup scZero (mkStore cgW) "HTPP" =
      ((fuzzySearch scZero (mkStore cgW) "HTPP" 60).take 3).map
        (fun r => { r with match_type := "suggestion" }) ∧
    (∀ q' : String, ∀ r ∈ lookup scZero (mkStore cgW) q',
        r.match_type = "exact" ∨ r.match_type = "suggestion") ∧
    (∀ (query : String) (threshold : Rat),
        ∀ r ∈ fuzzySearch scZero (mkStore cgW) query threshold,
        r.match_type ≠ "suggestion") ∧
    (∀ (agent : Option (String → String → Except String (List String)))
        (query : String) (context : Option String),
        ∀ r ∈ agenticSearch scZero (mkStore cgW) agent query context,
        r.match_type ≠ "suggestion")) :=
  ⟨by decide, C7_lookup_miss_suggestions scZero (mkStore cgW) "HTPP" (by decide)⟩

/-! ## C8 -/

/-- C8: whenever the capability handle is absent or its invocation fails,
agentic search returns exactly the top 3 fuzzy results at threshold 60
relabelled "agentic_fallback"; every result then carries match type
"agentic_fallback" and names a term among the fuzzy results' terms.
`agenticSearch` is a total function into `List TermResult`: no failure of
the capability propagates to the caller. -/
theorem C8_agentic_fallback (sc : String → String → Rat) (s : Store)
    (agent : Option (String → String → Except String (List String)))
    (query : String) (context : Option String)
    (hfail : agent = none ∨
      ∃ run e, agent = some run ∧
        run (fullQuery query context) s.get_all_terms_text = Except.error e) :
    agenticSearch sc s agent query context =
      ((fuzzySearch sc s query 60).take 3).map
        (fun r => { r with match_type := "agentic_fallback" }) ∧
    (∀ r ∈ agenticSearch sc s agent query context,
        r.match_type = "agentic_fallback" ∧
        r.term ∈ (fuzzySearch sc s query 60).map TermResult.term) := by
  have heq : agenticSearch sc s agent query context = agenticFallback sc s query := by
    rcases hfail with h | ⟨run, e, hagent, hrun⟩
    · subst h
      rfl
    · rw [hagent, agenticSearch_some, hrun]
  refine ⟨heq, ?_⟩
  intro r hr
  rw [heq] at hr
  obtain ⟨r', hr', hmap⟩ := List.mem_map.mp hr
  constructor
  · rw [← hmap]
  · have ht : r.term = r'.term := by rw [← hmap]
    rw [ht]
    exact List.mem_map.mpr ⟨r', List.take_subset _ _ hr', rfl⟩

/-- Witness for C8 with the capability absent. -/
theorem C8_witness :
    ((none : Option (String → String → Except String (List String))) = none ∨
      ∃ run e, (none : Option (String → String → Except String (List String))) = some run ∧
        run (fullQuery "HTTO" none) (mkStore cgW).get_all_terms_text = Except.error e) ∧
    (agenticSearch scZero (mkStore cgW) none "HTTO" none =
      ((fuzzySearch scZero (mkStore cgW) "HTTO" 60).take 3).map
        (fun r => { r with match_type := "agentic_fallback" }) ∧
    (∀ r ∈ agenticSearch scZero (mkStore cgW) none "HTTO" none,
        r.match_type = "agentic_fallback" ∧
        r.term ∈ (fuzzySearch scZero (mkStore cgW) "HTTO" 60).map TermResult.term)) :=
  ⟨Or.inl rfl, C8_agentic_fallback scZero (mkStore cgW) none "HTTO" none (Or.inl rfl)⟩

/-! ## C9 -/

/-- C9: with a non-empty prefix, `list_terms` returns exactly the glossary
keys whose canonical form case-insensitively starts with the prefix, sorted
ascending in code-point order, and the result is independent of load order
(two corpora whose key lists are permutations of one another list
identically); with no prefix it returns all keys, sorted the same way. -/
theorem C9_list_terms_sorted (g g' : RawGlossary) (p : String)
    (hp : p ≠ "") (hperm : (g.map Prod.fst).Perm (g'.map Prod.fst)) :
    (∀ t, t ∈ (mkStore g).list_terms (some p) ↔
        t ∈ g.map Prod.fst ∧ pyStartsWith (pyLower t) (pyLower p) = true) ∧
    ((mkStore g).list_terms (some p)).Sorted strLeP ∧
    (mkStore g).list_terms (some p) = (mkStore g').list_terms (some p) ∧
    (∀ t, t ∈ (mkStore g).list_terms none ↔ t ∈ g.map Prod.fst) ∧
    ((mkStore g).list_terms none).Sorted strLeP ∧
    (mkStore g).list_terms none = (mkStore g').list_terms none := by
  have hg : ∀ h : RawGlossary, (mkStore h).list_terms (some p)
      = List.insertionSort strLeP
          ((h.map Prod.fst).filter (fun t => pyStartsWith (pyLower t) (pyLower p))) := by
    intro h
    have h0 : (mkStore h).list_terms (some p)
        = if p = "" then List.insertionSort strLeP (h.map Prod.fst)
          else List.insertionSort strLeP
            ((h.map Prod.fst).filter (fun t => pyStartsWith (pyLower t) (pyLower p))) := rfl
    rw [h0, if_neg hp]
  refine ⟨?_, ?_, ?_, ?_, ?_, ?_⟩
  · intro t
    rw [hg g, (List.perm_insertionSort strLeP _).mem_iff, List.mem_filter]
  · rw [hg g]
    exact List.sorted_insertionSort _ _
  · rw [hg g, hg g']
    refine List.eq_of_perm_of_sorted ?_
      (List.sorted_insertionSort _ _) (List.sorted_insertionSort _ _)
    exact ((List.perm_insertionSort _ _).trans (hperm.filter _)).trans
      (List.perm_insertionSort _ _).symm
  · intro t
    exact (List.perm_insertionSort strLeP (g.map Prod.fst)).mem_iff
  · exact List.sorted_insertionSort _ _
  · refine List.eq_of_perm_of_sorted ?_
      (List.sorted_insertionSort _ _) (List.sorted_insertionSort _ _)
    exact ((List.perm_insertionSort _ _).trans hperm).trans
      (List.perm_insertionSort _ _).symm

/-- Witness for C9 on two-key corpora loaded in opposite orders. -/
theorem C9_witness :
    (("Al" : String) ≠ "") ∧ ((cgP1.map Prod.fst).Perm (cgP2.map Prod.fst)) ∧
    ((∀ t, t ∈ (mkStore cgP1).list_terms (some "Al") ↔
        t ∈ cgP1.map Prod.fst ∧ pyStartsWith (pyLower t) (pyLower "Al") = true) ∧
    ((mkStore cgP1).list_terms (some "Al")).Sorted strLeP ∧
    (mkStore cgP1).list_terms (some "Al") = (mkStore cgP2).list_terms (some "Al") ∧
    (∀ t, t ∈ (mkStore cgP1).list_terms none ↔ t ∈ cgP1.map Prod.fst) ∧
    ((mkStore cgP1).list_terms none).Sorted strLeP ∧
    (mkStore cgP1).list_terms none = (mkStore cgP2).list_terms none) :=
  ⟨by decide, by decide,
   C9_list_terms_sorted cgP1 cgP2 "Al" (by decide) (by decide)⟩

/-! ## C10 -/

/-- C10: for a string `T` that is not a key of the glossary table,
`get_term_object(T)` neither signals absence nor fails: it is a total
function returning the well-formed `GlossaryTerm` whose term is the queried
string and whose definitions list is empty (and `get_term_data` returns the
falsy default). -/
theorem C10_get_term_object_missing (s : Store) (T : String)
    (hT : T ∉ s.glossary.map Prod.fst) :
    s.get_term_object T = { term := T, definitions := [] } ∧
    s.get_term_data T = none := by
  have hfind : s.glossary.find? (fun p => p.1 == T) = none := by
    rw [List.find?_eq_none]
    intro p hp
    simp only [beq_iff_eq]
    intro hr
    exact hT (List.mem_map.mpr ⟨p, hp, hr⟩)
  have hdata : s.get_term_data T = none := by
    unfold Store.get_term_data
    rw [hfind]
    rfl
  refine ⟨?_, hdata⟩
  unfold Store.get_term_object
  rw [hdata]

/-- Witness for C10: a term absent from the spec's scenario corpus. -/
theorem C10_witness :
    ("nothere" ∉ (mkStore cgW).glossary.map Prod.fst) ∧
    ((mkStore cgW).get_term_object "nothere" = { term := "nothere", definitions := [] } ∧
     (mkStore cgW).get_term_data "nothere" = none) :=
  ⟨by decide, C10_get_term_object_missing (mkStore cgW) "nothere" (by decide)⟩

end Lexy
